import Mathlib

/-!
# Watermark codec of the OTT piracy-protection app

Shallow embedding of the watermarking core of `app.py`:
the pseudo-noise generator `generate_pn_sequence` and the DSSS embedder
`embed_watermark_dsss`, together with the companion operations that the
specification requires of the core API (`dsss_decode`, `lsb_encode`,
`lsb_decode`, buffer construction from container bytes), which are not
present in `app.py` and are therefore modelled from the spec.

Samples are modelled as integers (the int16 samples obtained from
`np.frombuffer(frames, dtype=np.int16)`); the float64 arithmetic of the
embedder is modelled exactly by integer arithmetic: the watermark term
`watermark_signal * alpha * np.max(np.abs(samples))` with `alpha = 0.01`
equals `e * M / 100` with numerator and denominator integral, and the
float64 rounding of `0.01` is far too small to move the truncated result
(the fractional parts involved are multiples of `1/100`).
-/

/-! ## MT19937 (the generator behind `np.random`) -/

/-- 32-bit truncation mask. -/
def mtMask : Nat := 0xffffffff

/-- One step of the MT19937 state initialisation recurrence used by
`np.random.seed`: `x' = (1812433253 * (x xor (x >> 30)) + i) mod 2^32`. -/
def mtInitStep (x i : Nat) : Nat := (1812433253 * (x ^^^ (x >>> 30)) + i) &&& mtMask

/-- Tail of the initial state: `k` further words starting at index `i`. -/
def mtInitAux (x i : Nat) : Nat → List Nat
  | 0 => []
  | k + 1 =>
    let x2 := mtInitStep x i
    x2 :: mtInitAux x2 (i + 1) k

/-- The 624-word MT19937 state produced by `np.random.seed seed`. -/
def mtInitState (seed : Nat) : List Nat :=
  (seed &&& mtMask) :: mtInitAux (seed &&& mtMask) 1 623

/-- The value written at position `i` during the MT19937 twist. -/
def mtTwistAt (st : List Nat) (i : Nat) : Nat :=
  let y := (st.getD i 0 &&& 0x80000000) + (st.getD ((i + 1) % 624) 0 &&& 0x7fffffff)
  let xA := (y >>> 1) ^^^ (if y % 2 = 1 then 0x9908b0df else 0)
  (st.getD ((i + 397) % 624) 0) ^^^ xA

/-- In-place twist loop: update positions `i, i+1, ...` (`k` of them). -/
def mtTwistGo (st : List Nat) (i : Nat) : Nat → List Nat
  | 0 => st
  | k + 1 => mtTwistGo (st.set i (mtTwistAt st i)) (i + 1) k

/-- One full MT19937 twist of the 624-word state. -/
def mtTwist (st : List Nat) : List Nat := mtTwistGo st 0 624

/-- MT19937 output tempering. -/
def mtTemper (y : Nat) : Nat :=
  let y1 := y ^^^ (y >>> 11)
  let y2 := y1 ^^^ ((y1 <<< 7) &&& 0x9d2c5680)
  let y3 := y2 ^^^ ((y2 <<< 15) &&& 0xefc60000)
  y3 ^^^ (y3 >>> 18)

/-- `b` successive generation blocks (each one twist followed by the 624
tempered outputs); `np.random.seed` leaves the index at the end of the
state, so the first draw after seeding starts with a twist. -/
def mtBlocks : Nat → List Nat → List Nat
  | 0, _ => []
  | b + 1, st =>
    let tw := mtTwist st
    tw.map mtTemper ++ mtBlocks b tw

/-- The first `k` 32-bit outputs of MT19937 from state `st`. -/
def mtStream (k : Nat) (st : List Nat) : List Nat :=
  (mtBlocks ((k + 623) / 624) st).take k

/-- `np.random.seed(42)` followed by `np.random.randint(0, 2, n)`:
the bounded-integer sampler masks each fresh 32-bit MT19937 output with
the mask 1 (never rejecting, since the masked value is always within the
range), so the `n` draws are the low bits of the first `n` outputs. -/
def mtBitList (n : Nat) : List Nat := (mtStream n (mtInitState 42)).map (fun y => y % 2)

/-! ## The codec of `app.py` -/

/-- `generate_pn_sequence` (`app.py` lines 19-29): reseeds `np.random`
with the fixed constant 42 on every call and maps each 0/1 draw to
`-1`/`+1`; the `chip_rate` argument is never used. -/
def generate_pn_sequence (chip_rate duration_samples : Nat) : List Int :=
  let _ := chip_rate
  (mtBitList duration_samples).map (fun (b : Nat) => 2 * (b : Int) - 1)

/-- Binary digits of `n`, least significant first, with structural fuel. -/
def bitsLSBAux : Nat → Nat → List Nat
  | 0, _ => []
  | _ + 1, 0 => []
  | f + 1, n + 1 => ((n + 1) % 2) :: bitsLSBAux f ((n + 1) / 2)

/-- Python `format(w, 'b')`: binary digits of `w`, most significant first
(`format(0, 'b') = "0"`). -/
def bitsMSB (w : Nat) : List Nat := if w = 0 then [0] else (bitsLSBAux w w).reverse

/-- Python `format(w, '08b')`: binary digits zero-padded on the left to at
least 8 digits (longer identifiers keep all their digits). -/
def bin8 (w : Nat) : List Nat := List.replicate (8 - (bitsMSB w).length) 0 ++ bitsMSB w

/-- The DSSS payload (`app.py` lines 51-55): the signature bit 1 followed
by the digits of `format(int(watermark_text), '08b')`, each bit `b`
mapped to `2*b - 1`. -/
def payloadDsss (w : Nat) : List Int := 1 :: (bin8 w).map (fun (b : Nat) => 2 * (b : Int) - 1)

/-- The payload as the specification words it: one signature bit (always
1) followed by the identifier as an 8-bit unsigned value, most
significant bit first, each bit mapped to {-1, +1}. -/
def toBitsFix : Nat → Nat → List Nat
  | 0, _ => []
  | k + 1, n => toBitsFix k (n / 2) ++ [n % 2]

/-- Spec-side payload definition, for comparison with `payloadDsss`. -/
def payloadSpec (w : Nat) : List Int := 1 :: (toBitsFix 8 w).map (fun (b : Nat) => 2 * (b : Int) - 1)

/-- `np.abs` on an int16 value: `abs (-32768)` overflows back to `-32768`. -/
def npAbs (x : Int) : Int := if x = -32768 then -32768 else |x|

/-- `np.max(np.abs(samples))` over the int16 samples (empty list: 0,
unreachable behind the capacity check). -/
def npMaxAbs : List Int → Int
  | [] => 0
  | h :: t => t.foldl (fun a x => max a (npAbs x)) (npAbs h)

/-- Mathematical maximum absolute sample value. -/
def maxAbs (s : List Int) : Int := s.foldl (fun a x => max a |x|) 0

/-- `np.clip(v, -32768, 32767)`. -/
def clampInt16 (z : Int) : Int := max (-32768) (min 32767 z)

/-- `watermark_signal[n]` (`app.py` lines 68-77): the chip value
`pn[n] * payload[n / spreading_factor]` on the first
`len(payload) * spreading_factor` samples, 0 beyond them. -/
def embedSignal (pnl P : List Int) (SF n : Nat) : Int :=
  if n < P.length * SF then pnl.getD n 0 * P.getD (n / SF) 0 else 0

/-- The sample-domain DSSS transform (`app.py` lines 68-86):
`clip(samples + watermark_signal * alpha * np.max(np.abs(samples))).astype(int16)`
with `alpha = 0.01`.  The float value at index `n` is
`samples[n] + e_n * M / 100` with integer numerator, so the int16 cast
(truncation toward zero) is `Int.tdiv (100*samples[n] + e_n*M) 100`;
clipping before or after that truncation gives the same integer. -/
def dsssWatermarkedSamples (frame_rate : Nat) (samples : List Int) (w : Nat) : List Int :=
  let P := payloadDsss w
  let SF := samples.length / P.length
  let pnl := generate_pn_sequence frame_rate samples.length
  let NM := npMaxAbs samples
  (List.range samples.length).map (fun n =>
    clampInt16 (Int.tdiv (100 * samples.getD n 0 + embedSignal pnl P SF n * NM) 100))

/-- WAV format parameters carried through the pipeline
(`wave.getparams` / `wave.setparams`). -/
structure WavParams where
  nchannels : Nat
  sampwidth : Nat
  framerate : Nat
  nframes : Nat
deriving DecidableEq

/-- The error taxonomy of the specification. -/
inductive WatermarkError where
  | capacity
  | format
  | unsupported
  | noWatermark
  | decodeFailure
deriving DecidableEq

/-- `embed_watermark_dsss` (`app.py` lines 34-95) at the sample level:
compute `spreading_factor = floor(len(samples) / len(payload))`, raise
(`CapacityError`) when it is below 100 — before any output is produced —
and otherwise emit the transformed samples under the unchanged WAV
parameters. -/
def embed_watermark_dsss (p : WavParams) (samples : List Int) (w : Nat) :
    Except WatermarkError (WavParams × List Int) :=
  if samples.length / (payloadDsss w).length < 100 then
    Except.error WatermarkError.capacity
  else
    Except.ok (p, dsssWatermarkedSamples p.framerate samples w)

/-- Correlation of `samples` against the PN sequence on chip segment `i`
(sum of chip-wise products over `[i*SF, (i+1)*SF)`). -/
def segCorrelation (samples pnl : List Int) (SF i : Nat) : Int :=
  ∑ k ∈ Finset.range SF, samples.getD (i * SF + k) 0 * pnl.getD (i * SF + k) 0

/-- Sign of a correlation, as a chip value (non-positive gives `-1`). -/
def chipOf (c : Int) : Int := if 0 < c then 1 else -1

/-- The nine chips recovered by correlation: the PN sequence and the
spreading factor are regenerated from `len(samples)` and the fixed
9-chip payload, and the sign of each segment correlation is the
recovered chip. -/
def dsssChips (samples : List Int) : List Int :=
  (List.range 9).map (fun i =>
    chipOf (segCorrelation samples (generate_pn_sequence 0 samples.length)
      (samples.length / 9) i))

/-- Modelled from the spec: `dsss_decode`, the correlation-based recovery
operation required of the core API but absent from `src/app.py`.
It recovers the nine chips by correlation, fails with `NoWatermarkError`
when the recovered signature chip is not 1, and reassembles the
remaining 8 chips most-significant-bit first into the identifier. -/
def dsss_decode (samples : List Int) : Except WatermarkError Nat :=
  if (dsssChips samples).getD 0 0 = 1 then
    Except.ok (((dsssChips samples).drop 1).foldl
      (fun a c => 2 * a + (if c = 1 then 1 else 0)) 0)
  else
    Except.error WatermarkError.noWatermark

/-! ## LSB codec (modelled from the spec) -/

/-- Modelled from the spec: `samples[i] = (samples[i] & ~1) | bit`, i.e.
clear the low bit (in two's complement: subtract `x mod 2`) and or the
payload bit in. -/
def setLowBit (x : Int) (b : Nat) : Int := x - x % 2 + b

/-- MSB-first fold of a bit list into a natural number. -/
def bitsToNat (bits : List Nat) : Nat := bits.foldl (fun a b => 2 * a + b) 0

/-- A byte expanded to its 8 bits, most significant first. -/
def byteBits (b : Nat) : List Nat := toBitsFix 8 b

/-- Modelled from the spec: the LSB payload bit sequence — a 16-bit
unsigned length prefix (the payload bit count `8 * len(id)`, MSB first)
followed by the identifier bytes expanded to 8 bits each, MSB first. -/
def lsbPayloadBits (idBytes : List Nat) : List Nat :=
  toBitsFix 16 (8 * idBytes.length) ++ (idBytes.map byteBits).flatten

/-- Overwrite the low bits of the leading samples with the given bits,
leaving the remaining samples unchanged. -/
def applyBits : List Int → List Nat → List Int
  | s, [] => s
  | [], _ => []
  | x :: s, b :: bs => setLowBit x b :: applyBits s bs

/-- Modelled from the spec: `lsb_encode`, absent from `src/app.py`
(the source replaced the LSB scheme by DSSS).  Fails with
`CapacityError` when `16 + 8*len(id)` exceeds the sample count, before
any mutation; otherwise overwrites the low bits of the leading samples. -/
def lsb_encode (samples : List Int) (idBytes : List Nat) :
    Except WatermarkError (List Int) :=
  if samples.length < (lsbPayloadBits idBytes).length then
    Except.error WatermarkError.capacity
  else
    Except.ok (applyBits samples (lsbPayloadBits idBytes))

/-- The low bit of a sample (two's complement: `x mod 2`). -/
def lowBit (x : Int) : Nat := (x % 2).toNat

/-- Regroup a bit list into 8-bit MSB-first bytes (dropping a trailing
incomplete group). -/
def chunks8 : List Nat → List Nat
  | b0 :: b1 :: b2 :: b3 :: b4 :: b5 :: b6 :: b7 :: rest =>
      bitsToNat [b0, b1, b2, b3, b4, b5, b6, b7] :: chunks8 rest
  | _ => []

/-- Modelled from the spec: `lsb_decode`, absent from `src/app.py`.
Reads the first 16 low bits as the payload bit count `L`, fails with
`CapacityError` when `16 + L` exceeds the sample count, with
`DecodeError` when `L` is not a multiple of 8, and otherwise regroups
the next `L` low bits into bytes. -/
def lsb_decode (samples : List Int) : Except WatermarkError (List Nat) :=
  let L := bitsToNat ((samples.take 16).map lowBit)
  if samples.length < 16 + L then Except.error WatermarkError.capacity
  else if L % 8 ≠ 0 then Except.error WatermarkError.decodeFailure
  else Except.ok (chunks8 (((samples.drop 16).take L).map lowBit))

/-! ## Sample-buffer construction from container bytes -/

/-- `np.frombuffer(frames, dtype=np.int16)` (`app.py` line 46): parse the
raw bytes as little-endian signed 16-bit samples; `np.frombuffer` raises
when the byte count is not a multiple of the 2-byte item size. -/
def bytesToSamples : List Nat → Option (List Int)
  | [] => some []
  | [_] => none
  | b0 :: b1 :: rest =>
      (bytesToSamples rest).map (fun t =>
        (((b0 + 256 * b1 : Nat) : Int) - if 32768 ≤ b0 + 256 * b1 then 65536 else 0) :: t)

/-- Construction of the sample buffer from container bytes as `app.py`
lines 37-46 performs it: the frames are always parsed as int16 — the
declared `sampwidth` is read (line 40) but never checked, so no bit
depth is ever rejected. -/
def pcmFromContainerBytes (raw : List Nat) (p : WavParams) : Option (List Int) :=
  let _ := p.sampwidth
  bytesToSamples raw

/-- All samples within the signed 16-bit range. -/
def valid16 (s : List Int) : Prop := ∀ x ∈ s, -32768 ≤ x ∧ x ≤ 32767

instance : DecidablePred valid16 := fun s =>
  inferInstanceAs (Decidable (∀ x ∈ s, -32768 ≤ x ∧ x ≤ 32767))

/-- The buffer used to witness the DSSS round trip: amplitude 200, sign
alternating against the PN sequence so that every aligned segment of
even length has zero host correlation with the PN sequence. -/
def c5buf : List Int :=
  (List.range 900).map (fun n =>
    200 * (if n % 2 = 0 then 1 else -1) * (generate_pn_sequence 0 900).getD n 0)

/-! ## Basic lemmas -/

theorem foldl_max_le (f : Int → Int) (B : Int) :
    ∀ (l : List Int) (a : Int), a ≤ B → (∀ x ∈ l, f x ≤ B) →
      l.foldl (fun acc x => max acc (f x)) a ≤ B
  | [], a, ha, _ => ha
  | x :: t, a, ha, hl => by
    have hx : f x ≤ B := hl x (List.mem_cons_self x t)
    exact foldl_max_le f B t (max a (f x)) (max_le ha hx)
      (fun y hy => hl y (List.mem_cons_of_mem x hy))

theorem le_foldl_max (f : Int → Int) :
    ∀ (l : List Int) (a : Int), a ≤ l.foldl (fun acc x => max acc (f x)) a
  | [], _ => le_refl _
  | x :: t, a => le_trans (le_max_left a (f x)) (le_foldl_max f t (max a (f x)))

theorem mem_le_foldl_max (f : Int → Int) :
    ∀ (l : List Int) (a : Int) (x : Int), x ∈ l →
      f x ≤ l.foldl (fun acc x => max acc (f x)) a
  | [], _, x, hx => absurd hx (List.not_mem_nil x)
  | y :: t, a, x, hx => by
    rcases List.mem_cons.mp hx with h | h
    · subst h
      exact le_trans (le_max_right a (f x)) (le_foldl_max f t _)
    · exact mem_le_foldl_max f t _ x h

theorem mtTwistGo_length (k : Nat) :
    ∀ (st : List Nat) (i : Nat), (mtTwistGo st i k).length = st.length := by
  induction k with
  | zero => intro st i; rfl
  | succ k ih =>
    intro st i
    show (mtTwistGo (st.set i (mtTwistAt st i)) (i + 1) k).length = _
    rw [ih, List.length_set]

theorem mtTwist_length (st : List Nat) : (mtTwist st).length = st.length :=
  mtTwistGo_length 624 st 0

theorem mtBlocks_length : ∀ (b : Nat) (st : List Nat),
    (mtBlocks b st).length = b * st.length
  | 0, _ => by simp [mtBlocks]
  | b + 1, st => by
    show ((mtTwist st).map mtTemper ++ mtBlocks b (mtTwist st)).length = _
    rw [List.length_append, List.length_map, mtBlocks_length b, mtTwist_length]
    ring

theorem mtInitAux_length (k : Nat) : ∀ (x i : Nat), (mtInitAux x i k).length = k := by
  induction k with
  | zero => intro x i; rfl
  | succ k ih => intro x i; show _ + 1 = _; rw [ih]

theorem mtInitState_length (seed : Nat) : (mtInitState seed).length = 624 := by
  show _ + 1 = 624
  rw [mtInitAux_length]

theorem mtStream_length (k : Nat) (st : List Nat) (h : st.length = 624) :
    (mtStream k st).length = k := by
  unfold mtStream
  rw [List.length_take, mtBlocks_length, h]
  have hd := Nat.div_add_mod (k + 623) 624
  have hm : (k + 623) % 624 < 624 := Nat.mod_lt _ (by norm_num)
  omega

theorem mtBitList_length (n : Nat) : (mtBitList n).length = n := by
  unfold mtBitList
  rw [List.length_map, mtStream_length n _ (mtInitState_length 42)]

theorem mtBitList_lt_two (n : Nat) : ∀ b ∈ mtBitList n, b < 2 := by
  intro b hb
  rcases List.mem_map.mp hb with ⟨y, _, rfl⟩
  exact Nat.mod_lt y (by norm_num)

theorem generate_pn_sequence_length (cr n : Nat) :
    (generate_pn_sequence cr n).length = n := by
  unfold generate_pn_sequence
  rw [List.length_map, mtBitList_length]

theorem generate_pn_sequence_mem (cr n : Nat) :
    ∀ x ∈ generate_pn_sequence cr n, x = 1 ∨ x = -1 := by
  intro x hx
  rcases List.mem_map.mp hx with ⟨b, hb, rfl⟩
  have h2 := mtBitList_lt_two n b hb
  interval_cases b
  · right; rfl
  · left; rfl

theorem generate_pn_sequence_getD (cr n i : Nat) (h : i < n) :
    (generate_pn_sequence cr n).getD i 0 = 1 ∨
      (generate_pn_sequence cr n).getD i 0 = -1 := by
  have hl : i < (generate_pn_sequence cr n).length := by
    rw [generate_pn_sequence_length]; exact h
  rw [List.getD_eq_getElem _ _ hl]
  exact generate_pn_sequence_mem cr n _ (List.getElem_mem hl)

theorem generate_pn_sequence_getD_sq (cr n i : Nat) (h : i < n) :
    (generate_pn_sequence cr n).getD i 0 * (generate_pn_sequence cr n).getD i 0 = 1 := by
  rcases generate_pn_sequence_getD cr n i h with he | he <;> rw [he] <;> rfl

theorem toBitsFix_length : ∀ (k n : Nat), (toBitsFix k n).length = k
  | 0, _ => rfl
  | k + 1, n => by
    show (toBitsFix k (n / 2) ++ [n % 2]).length = k + 1
    rw [List.length_append, toBitsFix_length k]
    rfl

theorem toBitsFix_lt_two : ∀ (k n : Nat), ∀ b ∈ toBitsFix k n, b < 2
  | 0, _, b, hb => absurd hb (List.not_mem_nil b)
  | k + 1, n, b, hb => by
    rcases List.mem_append.mp hb with h | h
    · exact toBitsFix_lt_two k (n / 2) b h
    · rcases List.mem_singleton.mp h with rfl
      exact Nat.mod_lt n (by norm_num)

theorem bitsToNat_append_single (xs : List Nat) (b : Nat) :
    bitsToNat (xs ++ [b]) = 2 * bitsToNat xs + b := by
  unfold bitsToNat
  rw [List.foldl_append]
  rfl

theorem bitsToNat_toBitsFix : ∀ (k n : Nat), n < 2 ^ k → bitsToNat (toBitsFix k n) = n
  | 0, n, h => by
    interval_cases n
    rfl
  | k + 1, n, h => by
    show bitsToNat (toBitsFix k (n / 2) ++ [n % 2]) = n
    rw [bitsToNat_append_single, bitsToNat_toBitsFix k (n / 2) (by omega)]
    omega

theorem bitsLSBAux_lt_two : ∀ (f n : Nat), ∀ b ∈ bitsLSBAux f n, b < 2
  | 0, _, b, hb => absurd hb (List.not_mem_nil b)
  | _ + 1, 0, b, hb => absurd hb (List.not_mem_nil b)
  | f + 1, n + 1, b, hb => by
    rcases List.mem_cons.mp hb with h | h
    · subst h
      exact Nat.mod_lt _ (by norm_num)
    · exact bitsLSBAux_lt_two f ((n + 1) / 2) b h

theorem bin8_lt_two (w : Nat) : ∀ b ∈ bin8 w, b < 2 := by
  intro b hb
  rcases List.mem_append.mp hb with h | h
  · rcases List.eq_of_mem_replicate h with rfl
    norm_num
  · unfold bitsMSB at h
    split at h
    · rcases List.mem_singleton.mp h with rfl
      norm_num
    · exact bitsLSBAux_lt_two w w b (List.mem_reverse.mp h)

theorem payloadDsss_mem (w : Nat) : ∀ c ∈ payloadDsss w, c = 1 ∨ c = -1 := by
  intro c hc
  rcases List.mem_cons.mp hc with h | h
  · exact Or.inl h
  · rcases List.mem_map.mp h with ⟨b, hb, rfl⟩
    have := bin8_lt_two w b hb
    interval_cases b
    · right; rfl
    · left; rfl

theorem payloadDsss_getD_pm1 (w i : Nat) (h : i < (payloadDsss w).length) :
    (payloadDsss w).getD i 0 = 1 ∨ (payloadDsss w).getD i 0 = -1 := by
  rw [List.getD_eq_getElem _ _ h]
  exact payloadDsss_mem w _ (List.getElem_mem h)

set_option maxRecDepth 20000 in
theorem payloadDsss_eq_spec : ∀ w < 256, payloadDsss w = payloadSpec w := by decide

set_option maxRecDepth 20000 in
theorem payloadDsss_length9 : ∀ w < 256, (payloadDsss w).length = 9 := by decide

theorem payloadDsss_head (w : Nat) : (payloadDsss w).getD 0 0 = 1 := rfl

theorem npAbs_zero : npAbs 0 = 0 := rfl

theorem npAbs_le_abs (x : Int) (h : -32768 ≤ x) : npAbs x ≤ |x| := by
  unfold npAbs
  split
  · rename_i he
    subst he
    norm_num
  · exact le_refl _

theorem neg_abs_le_npAbs (x : Int) : -|x| ≤ npAbs x := by
  unfold npAbs
  split
  · rename_i he
    subst he
    norm_num
  · exact (neg_abs_le x).trans (le_abs_self x)

theorem maxAbs_nonneg (s : List Int) : 0 ≤ maxAbs s := le_foldl_max _ s 0

theorem abs_le_maxAbs (s : List Int) (x : Int) (hx : x ∈ s) : |x| ≤ maxAbs s :=
  mem_le_foldl_max _ s 0 x hx

theorem npMaxAbs_le_maxAbs (s : List Int) (hv : valid16 s) : npMaxAbs s ≤ maxAbs s := by
  cases s with
  | nil => exact le_refl 0
  | cons h t =>
    apply foldl_max_le npAbs (maxAbs (h :: t)) t (npAbs h)
    · exact le_trans (npAbs_le_abs h (hv h (List.mem_cons_self h t)).1)
        (abs_le_maxAbs _ h (List.mem_cons_self h t))
    · intro x hx
      exact le_trans (npAbs_le_abs x (hv x (List.mem_cons_of_mem h hx)).1)
        (abs_le_maxAbs _ x (List.mem_cons_of_mem h hx))

theorem neg_maxAbs_le_npMaxAbs (s : List Int) : -maxAbs s ≤ npMaxAbs s := by
  cases s with
  | nil => simp [npMaxAbs, maxAbs]
  | cons h t =>
    have h1 : npAbs h ≤ npMaxAbs (h :: t) := le_foldl_max npAbs t (npAbs h)
    have h2 : -|h| ≤ npAbs h := neg_abs_le_npAbs h
    have h3 : |h| ≤ maxAbs (h :: t) := abs_le_maxAbs _ h (List.mem_cons_self h t)
    omega

theorem abs_npMaxAbs_le (s : List Int) (hv : valid16 s) : |npMaxAbs s| ≤ maxAbs s :=
  abs_le.mpr ⟨neg_maxAbs_le_npMaxAbs s, npMaxAbs_le_maxAbs s hv⟩

theorem clampInt16_eq_self (z : Int) (h1 : -32768 ≤ z) (h2 : z ≤ 32767) :
    clampInt16 z = z := by
  unfold clampInt16
  omega

theorem clampInt16_range (z : Int) : -32768 ≤ clampInt16 z ∧ clampInt16 z ≤ 32767 := by
  unfold clampInt16
  omega

theorem clampInt16_abs_sub (z s : Int) (h1 : -32768 ≤ s) (h2 : s ≤ 32767) :
    |clampInt16 z - s| ≤ |z - s| := by
  unfold clampInt16
  rcases abs_cases (z - s) with ⟨he, _⟩ | ⟨he, _⟩ <;> rw [he] <;>
    rcases abs_cases (max (-32768) (min 32767 z) - s) with ⟨he2, _⟩ | ⟨he2, _⟩ <;>
    rw [he2] <;> omega

theorem abs_tmod_le (c : Int) : |Int.tmod c 100| ≤ 99 := by
  cases c with
  | ofNat m =>
    have h1 : m % 100 < 100 := Nat.mod_lt _ (by norm_num)
    show |(Int.ofNat (m % 100))| ≤ 99
    rw [Int.abs_eq_natAbs]
    show ((m % 100 : Nat) : Int) ≤ 99
    omega
  | negSucc m =>
    have h1 : (m + 1) % 100 < 100 := Nat.mod_lt _ (by norm_num)
    show |(-(Int.ofNat ((m + 1) % 100)))| ≤ 99
    rw [abs_neg, Int.abs_eq_natAbs]
    show (((m + 1) % 100 : Nat) : Int) ≤ 99
    omega

theorem tdiv_sub_abs_le (c : Int) : |100 * Int.tdiv c 100 - c| ≤ 99 := by
  have h := Int.tdiv_add_tmod c 100
  have h2 := abs_tmod_le c
  have : 100 * Int.tdiv c 100 - c = -Int.tmod c 100 := by omega
  rw [this, abs_neg]
  exact h2

theorem tdiv_hundred_cancel (x : Int) : Int.tdiv (100 * x) 100 = x :=
  Int.mul_tdiv_cancel_left x (by norm_num)

theorem dsssWatermarkedSamples_length (fr : Nat) (s : List Int) (w : Nat) :
    (dsssWatermarkedSamples fr s w).length = s.length := by
  unfold dsssWatermarkedSamples
  rw [List.length_map, List.length_range]

theorem dsssWatermarkedSamples_getD (fr : Nat) (s : List Int) (w n : Nat)
    (h : n < s.length) :
    (dsssWatermarkedSamples fr s w).getD n 0 =
      clampInt16 (Int.tdiv (100 * s.getD n 0 +
        embedSignal (generate_pn_sequence fr s.length) (payloadDsss w)
          (s.length / (payloadDsss w).length) n * npMaxAbs s) 100) := by
  have hl : n < (dsssWatermarkedSamples fr s w).length := by
    rw [dsssWatermarkedSamples_length]; exact h
  rw [List.getD_eq_getElem _ _ hl]
  unfold dsssWatermarkedSamples
  simp only [List.getElem_map, List.getElem_range]

theorem dsssWatermarkedSamples_getD_default (fr : Nat) (s : List Int) (w n : Nat)
    (h : s.length ≤ n) : (dsssWatermarkedSamples fr s w).getD n 0 = 0 := by
  apply List.getD_eq_default
  rw [dsssWatermarkedSamples_length]
  exact h

theorem embedSignal_abs_le_one (fr N : Nat) (P : List Int) (SF n : Nat)
    (hP : ∀ i < P.length, P.getD i 0 = 1 ∨ P.getD i 0 = -1)
    (hlen : P.length * SF ≤ N) :
    |embedSignal (generate_pn_sequence fr N) P SF n| ≤ 1 := by
  unfold embedSignal
  split
  · rename_i hn
    have hSF : 0 < SF := by
      rcases Nat.eq_zero_or_pos SF with h0 | h0
      · rw [h0, Nat.mul_zero] at hn
        omega
      · exact h0
    have hdiv : n / SF < P.length := by
      rw [Nat.div_lt_iff_lt_mul hSF]
      omega
    have hnN : n < N := lt_of_lt_of_le hn hlen
    rw [abs_mul]
    rcases generate_pn_sequence_getD fr N n hnN with hp | hp <;>
      rcases hP _ hdiv with hq | hq <;> rw [hp, hq] <;> norm_num
  · norm_num

theorem dsss_pointwise_bound (fr : Nat) (s : List Int) (w n : Nat) (hv : valid16 s) :
    100 * |(dsssWatermarkedSamples fr s w).getD n 0 - s.getD n 0| ≤ maxAbs s + 99 := by
  rcases Nat.lt_or_ge n s.length with h | h
  · rw [dsssWatermarkedSamples_getD fr s w n h]
    have hmem : s.getD n 0 ∈ s := by
      rw [List.getD_eq_getElem _ _ h]
      exact List.getElem_mem h
    have hsr := hv _ hmem
    set e := embedSignal (generate_pn_sequence fr s.length) (payloadDsss w)
      (s.length / (payloadDsss w).length) n with he
    have he1 : |e| ≤ 1 := by
      rw [he]
      apply embedSignal_abs_le_one
      · intro i hi
        exact payloadDsss_getD_pm1 w i hi
      · exact Nat.mul_div_le s.length (payloadDsss w).length
    set c := 100 * s.getD n 0 + e * npMaxAbs s with hc
    have hclamp : |clampInt16 (Int.tdiv c 100) - s.getD n 0| ≤ |Int.tdiv c 100 - s.getD n 0| :=
      clampInt16_abs_sub _ _ hsr.1 hsr.2
    have htd : |100 * Int.tdiv c 100 - c| ≤ 99 := tdiv_sub_abs_le c
    have hNM : |npMaxAbs s| ≤ maxAbs s := abs_npMaxAbs_le s hv
    have heNM : |e * npMaxAbs s| ≤ maxAbs s := by
      rw [abs_mul]
      calc |e| * |npMaxAbs s| ≤ 1 * |npMaxAbs s| :=
            mul_le_mul_of_nonneg_right he1 (abs_nonneg _)
        _ = |npMaxAbs s| := one_mul _
        _ ≤ maxAbs s := hNM
    have hkey : 100 * |Int.tdiv c 100 - s.getD n 0| ≤ maxAbs s + 99 := by
      have h1 : 100 * |Int.tdiv c 100 - s.getD n 0| = |100 * Int.tdiv c 100 - 100 * s.getD n 0| := by
        have hd : 100 * Int.tdiv c 100 - 100 * s.getD n 0 =
            100 * (Int.tdiv c 100 - s.getD n 0) := by ring
        rw [hd, abs_mul, abs_of_nonneg (by norm_num : (0:Int) ≤ 100)]
      rw [h1]
      have h2 : |100 * Int.tdiv c 100 - 100 * s.getD n 0| ≤
          |100 * Int.tdiv c 100 - c| + |c - 100 * s.getD n 0| := by
        have := abs_sub_abs_le_abs_sub (100 * Int.tdiv c 100 - 100 * s.getD n 0) 0
        calc |100 * Int.tdiv c 100 - 100 * s.getD n 0|
            = |(100 * Int.tdiv c 100 - c) + (c - 100 * s.getD n 0)| := by ring_nf
          _ ≤ |100 * Int.tdiv c 100 - c| + |c - 100 * s.getD n 0| := abs_add _ _
      have h3 : |c - 100 * s.getD n 0| = |e * npMaxAbs s| := by
        rw [hc]
        congr 1
        ring
      rw [h3] at h2
      omega
    calc 100 * |clampInt16 (Int.tdiv c 100) - s.getD n 0|
        ≤ 100 * |Int.tdiv c 100 - s.getD n 0| := by
          apply mul_le_mul_of_nonneg_left hclamp
          norm_num
      _ ≤ maxAbs s + 99 := hkey
  · rw [dsssWatermarkedSamples_getD_default fr s w n h,
      List.getD_eq_default _ _ h]
    have := maxAbs_nonneg s
    norm_num
    omega

theorem dsss_range (fr : Nat) (s : List Int) (w n : Nat) :
    -32768 ≤ (dsssWatermarkedSamples fr s w).getD n 0 ∧
      (dsssWatermarkedSamples fr s w).getD n 0 ≤ 32767 := by
  rcases Nat.lt_or_ge n s.length with h | h
  · rw [dsssWatermarkedSamples_getD fr s w n h]
    exact clampInt16_range _
  · rw [dsssWatermarkedSamples_getD_default fr s w n h]
    norm_num

theorem embed_error_iff (p : WavParams) (s : List Int) (w : Nat) :
    embed_watermark_dsss p s w = Except.error WatermarkError.capacity ↔
      s.length / (payloadDsss w).length < 100 := by
  unfold embed_watermark_dsss
  split
  · rename_i h
    simp [h]
  · rename_i h
    simp [h]

theorem embed_ok (p : WavParams) (s : List Int) (w : Nat)
    (h : ¬ s.length / (payloadDsss w).length < 100) :
    embed_watermark_dsss p s w =
      Except.ok (p, dsssWatermarkedSamples p.framerate s w) := by
  unfold embed_watermark_dsss
  rw [if_neg h]

theorem payload7_length : (payloadDsss 7).length = 9 := rfl

theorem dsss_tail_getD (fr : Nat) (s : List Int) (w n : Nat) (hv : valid16 s)
    (hn : (payloadDsss w).length * (s.length / (payloadDsss w).length) ≤ n) :
    (dsssWatermarkedSamples fr s w).getD n 0 = s.getD n 0 := by
  rcases Nat.lt_or_ge n s.length with h | h
  · rw [dsssWatermarkedSamples_getD fr s w n h]
    have he : embedSignal (generate_pn_sequence fr s.length) (payloadDsss w)
        (s.length / (payloadDsss w).length) n = 0 := by
      unfold embedSignal
      rw [if_neg (by omega)]
    rw [he, zero_mul, add_zero, tdiv_hundred_cancel]
    have hmem : s.getD n 0 ∈ s := by
      rw [List.getD_eq_getElem _ _ h]
      exact List.getElem_mem h
    have hsr := hv _ hmem
    exact clampInt16_eq_self _ hsr.1 hsr.2
  · rw [dsssWatermarkedSamples_getD_default fr s w n h, List.getD_eq_default _ _ h]

theorem bytesToSamples_eq_none_iff : ∀ (raw : List Nat),
    bytesToSamples raw = none ↔ raw.length % 2 = 1
  | [] => by simp [bytesToSamples]
  | [b] => by simp [bytesToSamples]
  | b0 :: b1 :: rest => by
    have ih := bytesToSamples_eq_none_iff rest
    show (bytesToSamples rest).map _ = none ↔ _
    rw [Option.map_eq_none', ih]
    simp only [List.length_cons]
    omega

theorem valid16_replicate_zero (n : Nat) : valid16 (List.replicate n (0:Int)) := by
  intro x hx
  rcases List.eq_of_mem_replicate hx with rfl
  norm_num

/-- C1: DSSS encode computes `spreading_factor = floor(len(samples) / len(payload))`
and fails with `CapacityError` exactly when it is below 100, before any output is
produced (the error branch returns no transformed samples); a 44100-sample buffer
with the 9-chip payload of identifier 7 succeeds with spreading factor 4900, and a
500-sample buffer fails with spreading factor 55. -/
theorem C1_capacity_check :
    (∀ (p : WavParams) (s : List Int) (w : Nat),
        embed_watermark_dsss p s w = Except.error WatermarkError.capacity ↔
          s.length / (payloadDsss w).length < 100)
    ∧ (List.replicate 44100 (0:Int)).length / (payloadDsss 7).length = 4900
    ∧ embed_watermark_dsss ⟨1, 2, 44100, 44100⟩ (List.replicate 44100 0) 7 =
        Except.ok (⟨1, 2, 44100, 44100⟩,
          dsssWatermarkedSamples 44100 (List.replicate 44100 0) 7)
    ∧ (List.replicate 500 (0:Int)).length / (payloadDsss 7).length = 55
    ∧ embed_watermark_dsss ⟨1, 2, 44100, 500⟩ (List.replicate 500 0) 7 =
        Except.error WatermarkError.capacity := by
  refine ⟨embed_error_iff, ?_, ?_, ?_, ?_⟩
  · rw [List.length_replicate, payload7_length]
  · apply embed_ok
    rw [List.length_replicate, payload7_length]
    norm_num
  · rw [List.length_replicate, payload7_length]
  · rw [embed_error_iff, List.length_replicate, payload7_length]
    norm_num

/-- C2: for every input buffer of valid int16 samples, every output sample of the
DSSS transform differs from the input sample by at most
`alpha * max(|samples|) + 1` with `alpha = 0.01`, and the clipped output never
leaves the signed 16-bit range (accepted encodes return exactly this transform,
see `embed_watermark_dsss`). -/
theorem C2_amplitude_bound (fr : Nat) (s : List Int) (w n : Nat) (hv : valid16 s) :
    |((dsssWatermarkedSamples fr s w).getD n 0 : ℚ) - (s.getD n 0 : ℚ)| ≤
        (maxAbs s : ℚ) / 100 + 1
      ∧ -32768 ≤ (dsssWatermarkedSamples fr s w).getD n 0
      ∧ (dsssWatermarkedSamples fr s w).getD n 0 ≤ 32767 := by
  refine ⟨?_, (dsss_range fr s w n).1, (dsss_range fr s w n).2⟩
  have h := dsss_pointwise_bound fr s w n hv
  set a := (dsssWatermarkedSamples fr s w).getD n 0 with ha
  set b := s.getD n 0 with hb
  have habs : ((|a - b| : Int) : ℚ) = |(a:ℚ) - (b:ℚ)| := by
    push_cast
    rfl
  rw [← habs]
  have hsplit : (maxAbs s : ℚ) / 100 + 1 = ((maxAbs s : ℚ) + 100) / 100 := by ring
  rw [hsplit, le_div_iff₀ (by norm_num : (0:ℚ) < 100)]
  have h' : ((100 * |a - b| : Int) : ℚ) ≤ ((maxAbs s + 99 : Int) : ℚ) := by
    exact_mod_cast h
  push_cast at h'
  linarith

theorem C2_amplitude_bound_witness :
    valid16 (List.replicate 900 (0:Int)) ∧
      (|((dsssWatermarkedSamples 44100 (List.replicate 900 0) 7).getD 0 0 : ℚ) -
          ((List.replicate 900 (0:Int)).getD 0 0 : ℚ)| ≤
        (maxAbs (List.replicate 900 (0:Int)) : ℚ) / 100 + 1
      ∧ -32768 ≤ (dsssWatermarkedSamples 44100 (List.replicate 900 0) 7).getD 0 0
      ∧ (dsssWatermarkedSamples 44100 (List.replicate 900 0) 7).getD 0 0 ≤ 32767) :=
  ⟨valid16_replicate_zero 900, C2_amplitude_bound 44100 _ 7 0 (valid16_replicate_zero 900)⟩

/-- C3 counterexample: for identifier 256 the embedded payload has 10 chips, not
the claimed fixed 9, and it is not the signature bit followed by the identifier's
8 bits (Python `format(256, '08b')` keeps all 9 digits). -/
theorem C3_payload_counterexample :
    (payloadDsss 256).length = 10 ∧ payloadDsss 256 ≠ payloadSpec 256 := by decide

/-- C3 amended: for every identifier in 0..255, the embedded payload is the
signature bit 1 followed by the identifier's 8 bits most-significant-bit first,
each bit mapped from {0,1} to {-1,+1}, with fixed payload length 9 chips. -/
theorem C3_payload_structure (w : Nat) (h : w < 256) :
    payloadDsss w = payloadSpec w ∧ (payloadDsss w).length = 9 :=
  ⟨payloadDsss_eq_spec w h, payloadDsss_length9 w h⟩

theorem C3_payload_structure_witness :
    7 < 256 ∧ (payloadDsss 7 = payloadSpec 7 ∧ (payloadDsss 7).length = 9) :=
  ⟨by norm_num, C3_payload_structure 7 (by norm_num)⟩

/-- C4: every sample at an index at or beyond `len(payload) * spreading_factor`
is unchanged by the DSSS transform (the embedded signal is zero there). -/
theorem C4_tail_unmodified (fr : Nat) (s : List Int) (w n : Nat) (hv : valid16 s)
    (hn : (payloadDsss w).length * (s.length / (payloadDsss w).length) ≤ n) :
    (dsssWatermarkedSamples fr s w).getD n 0 = s.getD n 0 :=
  dsss_tail_getD fr s w n hv hn

theorem C4_tail_unmodified_witness :
    (valid16 (List.replicate 950 (0:Int))
      ∧ (payloadDsss 7).length *
          ((List.replicate 950 (0:Int)).length / (payloadDsss 7).length) ≤ 945)
    ∧ (dsssWatermarkedSamples 44100 (List.replicate 950 0) 7).getD 945 0 =
        (List.replicate 950 (0:Int)).getD 945 0 := by
  have h1 : valid16 (List.replicate 950 (0:Int)) := valid16_replicate_zero 950
  have h2 : (payloadDsss 7).length *
      ((List.replicate 950 (0:Int)).length / (payloadDsss 7).length) ≤ 945 := by
    rw [payload7_length, List.length_replicate]
  exact ⟨⟨h1, h2⟩, C4_tail_unmodified 44100 _ 7 945 h1 h2⟩

/-- C7: constructing the sample buffer from container bytes fails exactly when
the byte count is not a whole number of 2-byte samples, but no bit depth is ever
rejected: a declared 8-bit stream (`sampwidth = 1`) of two bytes is silently
misparsed as the single 16-bit sample 256 instead of failing with
`UnsupportedFormatError`. -/
theorem C7_container_bit_depth :
    (∀ (raw : List Nat) (p : WavParams),
        pcmFromContainerBytes raw p = none ↔ raw.length % 2 = 1)
    ∧ pcmFromContainerBytes [0, 1] ⟨1, 1, 8000, 1⟩ = some [256] := by
  constructor
  · intro raw p
    exact bytesToSamples_eq_none_iff raw
  · rfl

/-- C8: every accepted DSSS encode carries the input's WAV format parameters
(channel count, sample width, sample rate, frame count) to the output unchanged. -/
theorem C8_params_preserved (p : WavParams) (s : List Int) (w : Nat)
    (r : WavParams × List Int) (h : embed_watermark_dsss p s w = Except.ok r) :
    r.1 = p := by
  unfold embed_watermark_dsss at h
  split at h
  · cases h
  · cases h
    rfl

theorem C8_params_preserved_witness :
    embed_watermark_dsss ⟨1, 2, 44100, 900⟩ (List.replicate 900 0) 7 =
        Except.ok (⟨1, 2, 44100, 900⟩, dsssWatermarkedSamples 44100 (List.replicate 900 0) 7)
    ∧ ((⟨1, 2, 44100, 900⟩ : WavParams),
        dsssWatermarkedSamples 44100 (List.replicate 900 0) 7).1 =
        (⟨1, 2, 44100, 900⟩ : WavParams) := by
  have h : embed_watermark_dsss ⟨1, 2, 44100, 900⟩ (List.replicate 900 0) 7 =
      Except.ok (⟨1, 2, 44100, 900⟩,
        dsssWatermarkedSamples 44100 (List.replicate 900 0) 7) := by
    apply embed_ok
    rw [List.length_replicate, payload7_length]
    norm_num
  exact ⟨h, C8_params_preserved _ _ _ _ h⟩

/-- C9: `generate_pn_sequence` called twice with identical arguments returns
identical sequences (it reseeds `np.random` with the fixed constant 42 on every
call, so it is a pure function of its arguments), and every element of the
returned sequence is -1 or +1. -/
theorem C9_pn_deterministic (cr n : Nat) :
    generate_pn_sequence cr n = generate_pn_sequence cr n
    ∧ ∀ x ∈ generate_pn_sequence cr n, x = 1 ∨ x = -1 :=
  ⟨rfl, generate_pn_sequence_mem cr n⟩

/-- C10: the output of `generate_pn_sequence` depends only on its length
argument: the seed is the fixed constant 42 on every call, so the
`chip_rate` argument never affects the result. -/
theorem C10_pn_ignores_chip_rate (cr1 cr2 n : Nat) :
    generate_pn_sequence cr1 n = generate_pn_sequence cr2 n := rfl

theorem byteBits_length (b : Nat) : (byteBits b).length = 8 := toBitsFix_length 8 b

theorem flatten_byteBits_length : ∀ (idBytes : List Nat),
    ((idBytes.map byteBits).flatten).length = 8 * idBytes.length
  | [] => rfl
  | b :: t => by
    show (byteBits b ++ (t.map byteBits).flatten).length = _
    rw [List.length_append, byteBits_length, flatten_byteBits_length t]
    simp only [List.length_cons]
    ring

theorem lsbPayloadBits_length (idBytes : List Nat) :
    (lsbPayloadBits idBytes).length = 16 + 8 * idBytes.length := by
  unfold lsbPayloadBits
  rw [List.length_append, toBitsFix_length, flatten_byteBits_length]

theorem lsbPayloadBits_lt_two (idBytes : List Nat) :
    ∀ b ∈ lsbPayloadBits idBytes, b < 2 := by
  intro b hb
  rcases List.mem_append.mp hb with h | h
  · exact toBitsFix_lt_two 16 _ b h
  · rcases List.mem_flatten.mp h with ⟨l, hl, hbl⟩
    rcases List.mem_map.mp hl with ⟨x, _, rfl⟩
    exact toBitsFix_lt_two 8 x b hbl

theorem lowBit_setLowBit (x : Int) (b : Nat) (hb : b < 2) :
    lowBit (setLowBit x b) = b := by
  unfold lowBit setLowBit
  omega

theorem applyBits_map_lowBit : ∀ (bits : List Nat) (s : List Int),
    bits.length ≤ s.length → (∀ b ∈ bits, b < 2) →
    (applyBits s bits).map lowBit = bits ++ (s.drop bits.length).map lowBit
  | [], s, _, _ => by
    simp [applyBits]
  | b :: bs, [], hlen, _ => by
    simp at hlen
  | b :: bs, x :: t, hlen, hlt => by
    show lowBit (setLowBit x b) :: (applyBits t bs).map lowBit = _
    rw [lowBit_setLowBit x b (hlt b (List.mem_cons_self b bs))]
    rw [applyBits_map_lowBit bs t (by simpa using hlen)
      (fun y hy => hlt y (List.mem_cons_of_mem b hy))]
    rfl

theorem applyBits_length : ∀ (s : List Int) (bits : List Nat),
    (applyBits s bits).length = s.length
  | s, [] => by simp [applyBits]
  | [], _ :: _ => by simp [applyBits]
  | x :: t, b :: bs => by
    show (setLowBit x b :: applyBits t bs).length = t.length + 1
    rw [List.length_cons, applyBits_length t bs]

theorem chunks8_append8 (l rest : List Nat) (h : l.length = 8) :
    chunks8 (l ++ rest) = bitsToNat l :: chunks8 rest := by
  rcases l with _ | ⟨b0, l⟩
  · simp at h
  rcases l with _ | ⟨b1, l⟩
  · simp at h
  rcases l with _ | ⟨b2, l⟩
  · simp at h
  rcases l with _ | ⟨b3, l⟩
  · simp at h
  rcases l with _ | ⟨b4, l⟩
  · simp at h
  rcases l with _ | ⟨b5, l⟩
  · simp at h
  rcases l with _ | ⟨b6, l⟩
  · simp at h
  rcases l with _ | ⟨b7, l⟩
  · simp at h
  rcases l with _ | ⟨b8, l⟩
  · rfl
  · simp only [List.length_cons] at h
    omega

theorem chunks8_flatten : ∀ (idBytes : List Nat), (∀ b ∈ idBytes, b < 256) →
    chunks8 ((idBytes.map byteBits).flatten) = idBytes
  | [], _ => rfl
  | b :: t, hlt => by
    show chunks8 (byteBits b ++ (t.map byteBits).flatten) = b :: t
    rw [chunks8_append8 _ _ (byteBits_length b)]
    rw [chunks8_flatten t (fun y hy => hlt y (List.mem_cons_of_mem b hy))]
    rw [show bitsToNat (byteBits b) = b from
      bitsToNat_toBitsFix 8 b (by have := hlt b (List.mem_cons_self b t); omega)]

/-- C6: the LSB codec (modelled from the spec; the source replaced it by DSSS):
for every sample buffer with `len(samples) >= 16 + 8*len(id)` and every byte
sequence `id` of length 1 to 32, decoding the encoded buffer recovers `id`. -/
theorem C6_lsb_roundtrip (s : List Int) (idBytes : List Nat)
    (h1 : 1 ≤ idBytes.length) (h2 : idBytes.length ≤ 32)
    (h3 : ∀ b ∈ idBytes, b < 256)
    (h4 : 16 + 8 * idBytes.length ≤ s.length) :
    Except.bind (lsb_encode s idBytes) lsb_decode = Except.ok idBytes := by
  have hlen : (lsbPayloadBits idBytes).length = 16 + 8 * idBytes.length :=
    lsbPayloadBits_length idBytes
  have hcap : ¬ s.length < (lsbPayloadBits idBytes).length := by omega
  have henc : lsb_encode s idBytes = Except.ok (applyBits s (lsbPayloadBits idBytes)) := by
    unfold lsb_encode
    rw [if_neg hcap]
  rw [henc]
  show lsb_decode (applyBits s (lsbPayloadBits idBytes)) = Except.ok idBytes
  set enc := applyBits s (lsbPayloadBits idBytes) with hencdef
  have hmap : enc.map lowBit =
      lsbPayloadBits idBytes ++ (s.drop (lsbPayloadBits idBytes).length).map lowBit :=
    applyBits_map_lowBit (lsbPayloadBits idBytes) s (by omega)
      (lsbPayloadBits_lt_two idBytes)
  have hpre : (enc.take 16).map lowBit = toBitsFix 16 (8 * idBytes.length) := by
    rw [List.map_take, hmap]
    unfold lsbPayloadBits
    rw [List.append_assoc]
    exact List.take_left' (toBitsFix_length 16 _)
  have hL : bitsToNat ((enc.take 16).map lowBit) = 8 * idBytes.length := by
    rw [hpre]
    exact bitsToNat_toBitsFix 16 _ (by norm_num; omega)
  have henclen : enc.length = s.length := applyBits_length s _
  unfold lsb_decode
  rw [hL, if_neg (by omega), if_neg (by simp [Nat.mul_mod_right])]
  have hpay : ((enc.drop 16).take (8 * idBytes.length)).map lowBit =
      (idBytes.map byteBits).flatten := by
    rw [List.map_take, List.map_drop, hmap]
    unfold lsbPayloadBits
    rw [List.append_assoc, List.drop_left' (toBitsFix_length 16 _),
      List.take_left' (flatten_byteBits_length idBytes)]
  rw [hpay, chunks8_flatten idBytes h3]

theorem C6_lsb_roundtrip_witness :
    (1 ≤ ([55] : List Nat).length ∧ ([55] : List Nat).length ≤ 32
      ∧ (∀ b ∈ ([55] : List Nat), b < 256)
      ∧ 16 + 8 * ([55] : List Nat).length ≤ (List.replicate 24 (0:Int)).length)
    ∧ Except.bind (lsb_encode (List.replicate 24 0) [55]) lsb_decode =
        Except.ok [55] := by
  have ha : 1 ≤ ([55] : List Nat).length := by norm_num
  have hb : ([55] : List Nat).length ≤ 32 := by norm_num
  have hc : ∀ b ∈ ([55] : List Nat), b < 256 := by
    intro b hb
    rcases List.mem_singleton.mp hb with rfl
    norm_num
  have hd : 16 + 8 * ([55] : List Nat).length ≤ (List.replicate 24 (0:Int)).length := by
    rw [List.length_replicate]
    norm_num
  exact ⟨⟨ha, hb, hc, hd⟩, C6_lsb_roundtrip _ _ ha hb hc hd⟩

theorem getD_replicate_zero (k m : Nat) : (List.replicate k (0:Int)).getD m 0 = 0 := by
  rcases Nat.lt_or_ge m k with h | h
  · rw [List.getD_eq_getElem _ _ (by rw [List.length_replicate]; exact h)]
    exact List.getElem_replicate _ _
  · exact List.getD_eq_default _ _ (by rw [List.length_replicate]; exact h)

theorem foldl_npAbs_replicate_zero : ∀ (k : Nat),
    (List.replicate k (0:Int)).foldl (fun a x => max a (npAbs x)) 0 = 0
  | 0 => rfl
  | k + 1 => by
    show (List.replicate k (0:Int)).foldl (fun a x => max a (npAbs x)) (max 0 (npAbs 0)) = 0
    have h : max 0 (npAbs 0) = 0 := rfl
    rw [h]
    exact foldl_npAbs_replicate_zero k

theorem npMaxAbs_replicate_zero : ∀ (n : Nat), npMaxAbs (List.replicate n (0:Int)) = 0
  | 0 => rfl
  | n + 1 => by
    show (List.replicate n (0:Int)).foldl (fun a x => max a (npAbs x)) (npAbs 0) = 0
    have h : npAbs (0:Int) = 0 := rfl
    rw [h]
    exact foldl_npAbs_replicate_zero n

theorem dsss_replicate_zero (fr : Nat) (n w : Nat) :
    dsssWatermarkedSamples fr (List.replicate n (0:Int)) w = List.replicate n (0:Int) := by
  unfold dsssWatermarkedSamples
  have hz : ∀ m : Nat,
      clampInt16 (Int.tdiv (100 * (List.replicate n (0:Int)).getD m 0 +
        embedSignal (generate_pn_sequence fr (List.replicate n (0:Int)).length)
          (payloadDsss w)
          ((List.replicate n (0:Int)).length / (payloadDsss w).length) m *
          npMaxAbs (List.replicate n (0:Int))) 100) = 0 := by
    intro m
    rw [getD_replicate_zero, npMaxAbs_replicate_zero, mul_zero, mul_zero, add_zero,
      Int.zero_tdiv]
    rfl
  calc (List.range (List.replicate n (0:Int)).length).map _
      = (List.range (List.replicate n (0:Int)).length).map (fun _ => (0:Int)) :=
        List.map_congr_left (fun m _ => hz m)
    _ = List.replicate n (0:Int) := by
        rw [List.map_const', List.length_range, List.length_replicate]

theorem segCorrelation_replicate_zero (n : Nat) (pnl : List Int) (SF i : Nat) :
    segCorrelation (List.replicate n (0:Int)) pnl SF i = 0 := by
  unfold segCorrelation
  apply Finset.sum_eq_zero
  intro k _
  rw [getD_replicate_zero, zero_mul]

theorem dsss_decode_replicate_zero (n : Nat) :
    dsss_decode (List.replicate n (0:Int)) = Except.error WatermarkError.noWatermark := by
  have hchip : (dsssChips (List.replicate n (0:Int))).getD 0 0 = -1 := by
    unfold dsssChips
    rw [List.getD_eq_getElem _ _ (by rw [List.length_map, List.length_range]; norm_num)]
    simp only [List.getElem_map, List.getElem_range]
    rw [segCorrelation_replicate_zero]
    rfl
  unfold dsss_decode
  rw [hchip]
  rw [if_neg (by norm_num)]

/-- C5 counterexample: identifier 7 and the all-zero 900-sample buffer satisfy
the claim's preconditions (spreading factor 100), the encode succeeds and — the
embedding amplitude `alpha * max(|samples|)` being zero — returns the buffer
unchanged, and decoding then fails with `NoWatermarkError` instead of returning
identifier 7 with signature bit 1. -/
theorem C5_roundtrip_counterexample :
    (List.replicate 900 (0:Int)).length / 9 = 100
    ∧ embed_watermark_dsss ⟨1, 2, 44100, 900⟩ (List.replicate 900 0) 7 =
        Except.ok (⟨1, 2, 44100, 900⟩, List.replicate 900 0)
    ∧ dsss_decode (List.replicate 900 0) = Except.error WatermarkError.noWatermark := by
  refine ⟨by rw [List.length_replicate], ?_, dsss_decode_replicate_zero 900⟩
  rw [embed_ok _ _ _ (by rw [List.length_replicate, payload7_length]; norm_num)]
  rw [dsss_replicate_zero]

theorem pn_chip_rate (a b n : Nat) :
    generate_pn_sequence a n = generate_pn_sequence b n := rfl

theorem map_getD_range (l : List Int) :
    (List.range l.length).map (fun i => l.getD i 0) = l := by
  apply List.ext_getElem
  · rw [List.length_map, List.length_range]
  · intro i h1 h2
    simp only [List.getElem_map, List.getElem_range]
    exact List.getD_eq_getElem l 0 h2

theorem idx_div (i k SF : Nat) (hSF : 0 < SF) (hk : k < SF) : (i * SF + k) / SF = i := by
  rw [Nat.mul_comm i SF, Nat.mul_add_div hSF, Nat.div_eq_of_lt hk, Nat.add_zero]

set_option maxRecDepth 20000 in
theorem payload_foldl_decode : ∀ w < 256,
    ((payloadDsss w).drop 1).foldl (fun a c => 2 * a + (if c = 1 then 1 else 0)) 0 = w := by
  decide

theorem mul_expand_pn (sm pn b A : Int) (hsq : pn * pn = 1) :
    (sm + pn * b * A) * pn = sm * pn + b * A := by
  have h : (sm + pn * b * A) * pn = sm * pn + b * A * (pn * pn) := by ring
  rw [h, hsq, mul_one]

/-- C5 amended: for identifiers 0..255 and sample buffers with spreading factor
at least 100, provided the embedding amplitude is exact and effective
(`max(|samples|)` a multiple of 100, at least 100), no sample can clip
(`|samples[n]| <= 32767 - max/100`), and on every chip segment the host signal's
correlation with the PN sequence is smaller in magnitude than the embedded
watermark energy `(max/100) * spreading_factor`, decoding the encoded buffer
returns the identifier and the recovered signature chip equals 1. -/
theorem C5_roundtrip_amended (fr : Nat) (s : List Int) (w : Nat)
    (hw : w < 256)
    (hSF : 100 ≤ s.length / 9)
    (hmod : npMaxAbs s % 100 = 0)
    (hNM : 100 ≤ npMaxAbs s)
    (hclip : ∀ x ∈ s, |x| ≤ 32767 - npMaxAbs s / 100)
    (hcorr : ∀ i < 9,
      |segCorrelation s (generate_pn_sequence 0 s.length) (s.length / 9) i| <
        npMaxAbs s / 100 * ((s.length / 9 : Nat) : Int)) :
    dsss_decode (dsssWatermarkedSamples fr s w) = Except.ok w
    ∧ chipOf (segCorrelation (dsssWatermarkedSamples fr s w)
        (generate_pn_sequence 0 s.length) (s.length / 9) 0) = 1 := by
  have hP9 : (payloadDsss w).length = 9 := payloadDsss_length9 w hw
  set SF := s.length / 9 with hSFdef
  set A := npMaxAbs s / 100 with hAdef
  have hA : npMaxAbs s = 100 * A := by
    have h := Int.ediv_add_emod (npMaxAbs s) 100
    omega
  have hA1 : 1 ≤ A := by omega
  have hSF0 : 0 < SF := by omega
  have h9SF : 9 * SF ≤ s.length := by
    rw [hSFdef]
    calc 9 * (s.length / 9) = s.length / 9 * 9 := Nat.mul_comm _ _
      _ ≤ s.length := Nat.div_mul_le_self _ _
  have hdivP : s.length / (payloadDsss w).length = SF := by rw [hP9]
  have hpoint : ∀ n, n < 9 * SF →
      (dsssWatermarkedSamples fr s w).getD n 0 =
        s.getD n 0 + (generate_pn_sequence 0 s.length).getD n 0 *
          ((payloadDsss w).getD (n / SF) 0) * A := by
    intro n hn
    have hnN : n < s.length := lt_of_lt_of_le hn h9SF
    rw [dsssWatermarkedSamples_getD fr s w n hnN]
    rw [pn_chip_rate fr 0 s.length]
    have hcond : n < (payloadDsss w).length * (s.length / (payloadDsss w).length) := by
      rw [hP9, ← hSFdef]
      exact hn
    have hE : embedSignal (generate_pn_sequence 0 s.length) (payloadDsss w)
        (s.length / (payloadDsss w).length) n =
        (generate_pn_sequence 0 s.length).getD n 0 * (payloadDsss w).getD (n / SF) 0 := by
      unfold embedSignal
      rw [if_pos hcond, hdivP]
    rw [hE, hA]
    have harr : 100 * s.getD n 0 + (generate_pn_sequence 0 s.length).getD n 0 *
        (payloadDsss w).getD (n / SF) 0 * (100 * A) =
        100 * (s.getD n 0 + (generate_pn_sequence 0 s.length).getD n 0 *
          (payloadDsss w).getD (n / SF) 0 * A) := by ring
    rw [harr, tdiv_hundred_cancel]
    have hmem : s.getD n 0 ∈ s := by
      rw [List.getD_eq_getElem _ _ hnN]
      exact List.getElem_mem hnN
    have hsb := abs_le.mp (hclip _ hmem)
    have hpm := generate_pn_sequence_getD 0 s.length n hnN
    have hdivlt : n / SF < (payloadDsss w).length := by
      rw [hP9, Nat.div_lt_iff_lt_mul hSF0]
      omega
    have hbm := payloadDsss_getD_pm1 w (n / SF) hdivlt
    have hbound : -32768 ≤ s.getD n 0 + (generate_pn_sequence 0 s.length).getD n 0 *
          (payloadDsss w).getD (n / SF) 0 * A ∧
        s.getD n 0 + (generate_pn_sequence 0 s.length).getD n 0 *
          (payloadDsss w).getD (n / SF) 0 * A ≤ 32767 := by
      rcases hpm with h1 | h1 <;> rcases hbm with h2 | h2 <;> rw [h1, h2] <;>
        constructor <;> simp only [one_mul, mul_one, neg_mul, mul_neg, neg_neg] <;> omega
    exact clampInt16_eq_self _ hbound.1 hbound.2
  have hcorrEq : ∀ i, i < 9 →
      segCorrelation (dsssWatermarkedSamples fr s w)
          (generate_pn_sequence 0 s.length) SF i =
        segCorrelation s (generate_pn_sequence 0 s.length) SF i +
          (payloadDsss w).getD i 0 * A * (SF : Int) := by
    intro i hi
    unfold segCorrelation
    have hterm : ∀ k ∈ Finset.range SF,
        (dsssWatermarkedSamples fr s w).getD (i * SF + k) 0 *
          (generate_pn_sequence 0 s.length).getD (i * SF + k) 0 =
        s.getD (i * SF + k) 0 * (generate_pn_sequence 0 s.length).getD (i * SF + k) 0 +
          (payloadDsss w).getD i 0 * A := by
      intro k hk
      have hk' : k < SF := Finset.mem_range.mp hk
      have hm : i * SF + k < 9 * SF := by
        have hsucc : i * SF + k < (i + 1) * SF := by
          rw [Nat.succ_mul]
          omega
        have hle : (i + 1) * SF ≤ 9 * SF := Nat.mul_le_mul_right SF (by omega)
        omega
      rw [hpoint _ hm, idx_div i k SF hSF0 hk']
      exact mul_expand_pn _ _ _ _
        (generate_pn_sequence_getD_sq 0 s.length (i * SF + k) (lt_of_lt_of_le hm h9SF))
    rw [Finset.sum_congr rfl hterm, Finset.sum_add_distrib, Finset.sum_const,
      Finset.card_range, nsmul_eq_mul]
    ring
  have hchipEq : ∀ i, i < 9 →
      chipOf (segCorrelation (dsssWatermarkedSamples fr s w)
          (generate_pn_sequence 0 s.length) SF i) =
        (payloadDsss w).getD i 0 := by
    intro i hi
    rw [hcorrEq i hi]
    have habs := abs_lt.mp (hcorr i hi)
    rcases payloadDsss_getD_pm1 w i (by rw [hP9]; exact hi) with hb | hb <;> rw [hb]
    · unfold chipOf
      rw [if_pos (by linarith [habs.1])]
    · unfold chipOf
      rw [if_neg (not_lt.mpr (by linarith [habs.2]))]
  have hlen : (dsssWatermarkedSamples fr s w).length = s.length :=
    dsssWatermarkedSamples_length fr s w
  have hchips : dsssChips (dsssWatermarkedSamples fr s w) = payloadDsss w := by
    unfold dsssChips
    rw [hlen]
    calc (List.range 9).map (fun i => chipOf (segCorrelation
            (dsssWatermarkedSamples fr s w) (generate_pn_sequence 0 s.length) SF i))
        = (List.range 9).map (fun i => (payloadDsss w).getD i 0) :=
          List.map_congr_left (fun i hi => hchipEq i (List.mem_range.mp hi))
      _ = payloadDsss w := by
          rw [← hP9]
          exact map_getD_range _
  constructor
  · unfold dsss_decode
    rw [hchips, if_pos (payloadDsss_head w)]
    rw [payload_foldl_decode w hw]
  · exact (hchipEq 0 (by norm_num)).trans (payloadDsss_head w)

theorem foldl_max_const (c : Int) : ∀ (t : List Int), (∀ x ∈ t, npAbs x = c) →
    t.foldl (fun a x => max a (npAbs x)) c = c
  | [], _ => rfl
  | x :: t, h => by
    show t.foldl _ (max c (npAbs x)) = c
    rw [h x (List.mem_cons_self x t), max_self]
    exact foldl_max_const c t (fun y hy => h y (List.mem_cons_of_mem x hy))

theorem npMaxAbs_of_const (c : Int) (l : List Int) (hne : l ≠ [])
    (h : ∀ x ∈ l, npAbs x = c) : npMaxAbs l = c := by
  cases l with
  | nil => exact absurd rfl hne
  | cons x t =>
    show t.foldl _ (npAbs x) = c
    rw [h x (List.mem_cons_self x t)]
    exact foldl_max_const c t (fun y hy => h y (List.mem_cons_of_mem x hy))

theorem c5buf_length : c5buf.length = 900 := by
  unfold c5buf
  rw [List.length_map, List.length_range]

theorem c5buf_getD (n : Nat) (hn : n < 900) :
    c5buf.getD n 0 = 200 * (if n % 2 = 0 then (1:Int) else -1) *
      (generate_pn_sequence 0 900).getD n 0 := by
  unfold c5buf
  rw [List.getD_eq_getElem _ _ (by rw [List.length_map, List.length_range]; exact hn)]
  simp only [List.getElem_map, List.getElem_range]

theorem c5buf_mem (x : Int) (hx : x ∈ c5buf) : x = 200 ∨ x = -200 := by
  unfold c5buf at hx
  rcases List.mem_map.mp hx with ⟨n, hn, rfl⟩
  have hn' : n < 900 := List.mem_range.mp hn
  by_cases h : n % 2 = 0
  · rw [if_pos h]
    rcases generate_pn_sequence_getD 0 900 n hn' with hp | hp <;> rw [hp] <;> norm_num
  · rw [if_neg h]
    rcases generate_pn_sequence_getD 0 900 n hn' with hp | hp <;> rw [hp] <;> norm_num

theorem c5buf_npAbs (x : Int) (hx : x ∈ c5buf) : npAbs x = 200 := by
  rcases c5buf_mem x hx with rfl | rfl <;> decide

theorem npMaxAbs_c5buf : npMaxAbs c5buf = 200 := by
  apply npMaxAbs_of_const 200 c5buf
  · intro h
    have hl := c5buf_length
    rw [h] at hl
    simp at hl
  · exact c5buf_npAbs

theorem altsum (c : Int) : ∀ t : Nat,
    (∑ k ∈ Finset.range (2 * t), (if k % 2 = 0 then c else -c)) = 0
  | 0 => rfl
  | t + 1 => by
    have h2 : 2 * (t + 1) = 2 * t + 1 + 1 := by ring
    rw [h2, Finset.sum_range_succ, Finset.sum_range_succ, altsum c t]
    rw [if_pos (by omega : (2 * t) % 2 = 0), if_neg (by omega : ¬((2 * t + 1) % 2 = 0))]
    ring

theorem c5buf_corr (i : Nat) (hi : i < 9) :
    segCorrelation c5buf (generate_pn_sequence 0 900) 100 i = 0 := by
  unfold segCorrelation
  have hterm : ∀ k ∈ Finset.range 100,
      c5buf.getD (i * 100 + k) 0 * (generate_pn_sequence 0 900).getD (i * 100 + k) 0 =
      (if k % 2 = 0 then (200:Int) else -200) := by
    intro k hk
    have hk' : k < 100 := Finset.mem_range.mp hk
    have hm : i * 100 + k < 900 := by omega
    rw [c5buf_getD _ hm]
    rw [mul_assoc, generate_pn_sequence_getD_sq 0 900 (i * 100 + k) hm, mul_one]
    have hpar : (i * 100 + k) % 2 = k % 2 := by omega
    rw [hpar]
    split <;> ring
  rw [Finset.sum_congr rfl hterm]
  rw [show (100 : Nat) = 2 * 50 from by norm_num]
  exact altsum 200 50

theorem C5_roundtrip_amended_witness :
    (7 < 256
      ∧ 100 ≤ c5buf.length / 9
      ∧ npMaxAbs c5buf % 100 = 0
      ∧ 100 ≤ npMaxAbs c5buf
      ∧ (∀ x ∈ c5buf, |x| ≤ 32767 - npMaxAbs c5buf / 100)
      ∧ (∀ i < 9,
          |segCorrelation c5buf (generate_pn_sequence 0 c5buf.length)
              (c5buf.length / 9) i| <
            npMaxAbs c5buf / 100 * ((c5buf.length / 9 : Nat) : Int)))
    ∧ (dsss_decode (dsssWatermarkedSamples 0 c5buf 7) = Except.ok 7
      ∧ chipOf (segCorrelation (dsssWatermarkedSamples 0 c5buf 7)
          (generate_pn_sequence 0 c5buf.length) (c5buf.length / 9) 0) = 1) := by
  have h1 : (7:Nat) < 256 := by norm_num
  have hlen : c5buf.length = 900 := c5buf_length
  have h97 : (900 : Nat) / 9 = 100 := by norm_num
  have h2 : 100 ≤ c5buf.length / 9 := by rw [hlen, h97]
  have hNM : npMaxAbs c5buf = 200 := npMaxAbs_c5buf
  have h3 : npMaxAbs c5buf % 100 = 0 := by rw [hNM]; decide
  have h4 : 100 ≤ npMaxAbs c5buf := by rw [hNM]; decide
  have h5 : ∀ x ∈ c5buf, |x| ≤ 32767 - npMaxAbs c5buf / 100 := by
    intro x hx
    rw [hNM]
    rcases c5buf_mem x hx with rfl | rfl <;> decide
  have h6 : ∀ i < 9,
      |segCorrelation c5buf (generate_pn_sequence 0 c5buf.length)
          (c5buf.length / 9) i| <
        npMaxAbs c5buf / 100 * ((c5buf.length / 9 : Nat) : Int) := by
    intro i hi
    rw [hlen, hNM, h97, c5buf_corr i hi]
    decide
  exact ⟨⟨h1, h2, h3, h4, h5, h6⟩, C5_roundtrip_amended 0 c5buf 7 h1 h2 h3 h4 h5 h6⟩
